import Mathlib

/-!
Shallow embedding of the Uma language front end (lexer and parser) and
verification of its specification claims.

Sources embedded:
- src/src/lexer/tokens.rs   (TokenKind, Token, TokenKind::precedence)
- src/src/lexer/utils.rs    (character Buffer)
- src/src/lexer/mod.rs      (Lexer: parse_idx_or_kw, parse_number,
  parse_string, parse_character, lex)
- src/src/parser/utils.rs   (ErrorType, ParserError, token-stream Buffer)
- src/src/parser/types.rs   (Expr, Stmt, Block, Into conversions)
- src/src/parser/mod.rs     (Parser: parse, stmt, primary, binary, expr,
  block, ident, assignment, return_, variable, call, args, attribute,
  function)

Rust loops that can fail to terminate are embedded with an explicit fuel
parameter; exhausting the fuel is the `outOfFuel` outcome, a Rust `panic!`
(or `.expect(..)` / `.unwrap()` failure) is the `fatal` outcome, and a
`Result::Err(ParserError)` is the `err` outcome. Rust `String` is modelled
as `List Char` inside the lexer (where scans build strings character by
character) and as Lean `String` in the parser (where strings are opaque
payloads). `char::is_alphanumeric` / `char::is_whitespace` are Unicode
predicates in Rust; the embedding uses their ASCII fragments, which agree
with Rust on every input considered in this development.
-/

/-- Token kinds, from src/src/lexer/tokens.rs lines 1-37. The lexer module
src/src/lexer/mod.rs refers to this enumeration under the name TokenType;
the snapshot of tokens.rs declares it as TokenKind. -/
inductive TokenKind where
  | Identifier
  | String
  | Number
  | Float
  | None
  | True
  | False
  | PareL
  | PareR
  | BraceL
  | BraceR
  | BracketL
  | BracketR
  | Colon
  | Semi
  | Dot
  | Comma
  | Equals
  | Expo
  | Add
  | Sub
  | Multi
  | Div
  | At
  | Ellipsis
  | Let
  | Mut
  | If
  | Else
  | Return
  | Func
deriving DecidableEq, Repr

/-- Operator precedence, from impl TokenKind::precedence (tokens.rs lines
68-78); the Rust return type i8 is modelled as Int (values stay in -1..3). -/
def TokenKind.precedence : TokenKind → Int
  | .Expo => 3
  | .Div => 2
  | .Multi => 2
  | .Add => 1
  | .Sub => 1
  | _ => -1

/-- Debug rendering of a token kind, as produced by the Rust derive(Debug)
formatting used in error messages. -/
def kindDebugName : TokenKind → String
  | .Identifier => "Identifier"
  | .String => "String"
  | .Number => "Number"
  | .Float => "Float"
  | .None => "None"
  | .True => "True"
  | .False => "False"
  | .PareL => "PareL"
  | .PareR => "PareR"
  | .BraceL => "BraceL"
  | .BraceR => "BraceR"
  | .BracketL => "BracketL"
  | .BracketR => "BracketR"
  | .Colon => "Colon"
  | .Semi => "Semi"
  | .Dot => "Dot"
  | .Comma => "Comma"
  | .Equals => "Equals"
  | .Expo => "Expo"
  | .Add => "Add"
  | .Sub => "Sub"
  | .Multi => "Multi"
  | .Div => "Div"
  | .At => "At"
  | .Ellipsis => "Ellipsis"
  | .Let => "Let"
  | .Mut => "Mut"
  | .If => "If"
  | .Else => "Else"
  | .Return => "Return"
  | .Func => "Func"

/-- Positioned token, from src/src/lexer/tokens.rs lines 39-45. -/
structure Token where
  kind : TokenKind
  value : Option String
  line : Nat
  column : Nat
deriving DecidableEq, Repr

/-- Token.new, tokens.rs lines 48-55. -/
def Token.new (kind : TokenKind) (value : Option String) (line column : Nat) :
    Token :=
  ⟨kind, value, line, column⟩

-- AST expression and statement nodes, from src/src/parser/types.rs.
-- Expr::Binary boxes Stmt children in Rust; Block { stmts } is inlined as
-- the List Stmt payload of Stmt.Function.
mutual

inductive Expr where
  | Binary (lhs : Stmt) (op : Token) (rhs : Stmt)
  | Identifier (name : String)
  | Number (raw : String)
  | Float (raw : String)
  | String (value : String)

inductive Stmt where
  | Variable (name : String) (value : Stmt) (is_mut : Bool)
  | Function (name : String) (args : List (String × Option String))
      (external : Option String) (is_varadic : Bool) (body : List Stmt)
  | Call (name : String) (args : List Stmt)
  | Assignment (name : String) (value : Stmt)
  | Attribute (name : String) (value : String)
  | Return (value : Stmt)
  | Expr (e : Expr)
  | Empty

end

namespace Lexer

/-- Lexer-side token, from src/src/lexer/mod.rs lines 8-12: a kind plus an
optional textual payload, without source positions. Rust String payloads are
modelled as List Char. -/
structure Token where
  token_type : TokenKind
  value : Option (List Char)
deriving DecidableEq, Repr

/-- Keyword table, src/src/lexer/mod.rs lines 14-34. -/
def match_keyword_to_token (keyword : List Char) : Option Token :=
  if keyword = "let".toList then some ⟨.Let, none⟩
  else if keyword = "mut".toList then some ⟨.Mut, none⟩
  else if keyword = "if".toList then some ⟨.If, none⟩
  else if keyword = "else".toList then some ⟨.Else, none⟩
  else if keyword = "func".toList then some ⟨.Func, none⟩
  else if keyword = "return".toList then some ⟨.Return, none⟩
  else if keyword = "true".toList then some ⟨.True, none⟩
  else if keyword = "false".toList then some ⟨.False, none⟩
  else if keyword = "none".toList then some ⟨.None, none⟩
  else none

/-- Character cursor, src/src/lexer/utils.rs lines 3-10. The Peekable
character iterator is modelled as the list of characters not yet read. -/
structure Buffer where
  data : List Char
  eof : Bool
  current : Char
  line : Nat
  column : Nat
deriving DecidableEq, Repr

/-- Buffer::new, src/src/lexer/utils.rs lines 13-24: current is the first
character (NUL when the input is empty), eof is set exactly when current is
NUL, line is 1 plus one when the first character is a newline, column 0. -/
def Buffer.new : List Char → Buffer
  | [] => ⟨[], true, Char.ofNat 0, 1, 0⟩
  | c :: rest => ⟨rest, c == Char.ofNat 0, c, if c = '\n' then 2 else 1, 0⟩

/-- Buffer::next, src/src/lexer/utils.rs lines 26-45. On exhaustion it only
sets the eof flag and leaves current (and line/column) unchanged; otherwise
it moves current to the next character, updating line/column. The returned
Option char of the Rust method is used only by unit tests and is omitted
here; callers use only the updated buffer. -/
def Buffer.next (b : Buffer) : Buffer :=
  match b.data with
  | [] => ⟨[], true, b.current, b.line, b.column⟩
  | c :: rest =>
    if c = '\n' then ⟨rest, b.eof, c, b.line + 1, 0⟩
    else ⟨rest, b.eof, c, b.line, b.column + 1⟩

/-- ASCII fragment of char::is_alphanumeric, used by parse_idx_or_kw. -/
def isAlphanumeric (c : Char) : Bool :=
  c.isAlpha || c.isDigit

/-- Outcome of one token scan: the scanned value plus the buffer after it,
a fatal lexical error (Rust panic!), or fuel exhaustion (the Rust loop does
not terminate within the given budget). -/
inductive ScanResult (α : Type) where
  | ok (value : α) (buf : Buffer)
  | fatal (msg : String)
  | outOfFuel

/-- While-loop of parse_idx_or_kw, src/src/lexer/mod.rs lines 50-53: keep
appending current while it is alphanumeric or an underscore. -/
def parse_idx_or_kw_loop : Nat → List Char → Buffer → ScanResult (List Char)
  | 0, _, _ => .outOfFuel
  | fuel + 1, out, b =>
    if isAlphanumeric b.current || b.current = '_' then
      parse_idx_or_kw_loop fuel (out ++ [b.current]) b.next
    else
      .ok out b

/-- parse_idx_or_kw, src/src/lexer/mod.rs lines 47-59: scan the run, then
return the keyword token or an Identifier token carrying the run. -/
def parse_idx_or_kw (fuel : Nat) (b : Buffer) : ScanResult Token :=
  match parse_idx_or_kw_loop fuel [] b with
  | .ok out b' =>
    .ok ((match_keyword_to_token out).getD ⟨.Identifier, some out⟩) b'
  | .fatal m => .fatal m
  | .outOfFuel => .outOfFuel

/-- While-loop of parse_number, src/src/lexer/mod.rs lines 64-83: skip
underscores, panic on a decimal point when the output already holds one,
otherwise append and advance. The Rust code performs the duplicate-point
check and then pushes in shared code; the two branches here are identical
to that flow. -/
def parse_number_loop : Nat → List Char → Buffer → ScanResult (List Char)
  | 0, _, _ => .outOfFuel
  | fuel + 1, out, b =>
    if b.current.isDigit || b.current = '_' || b.current = '.' then
      if b.current = '_' then
        parse_number_loop fuel out b.next
      else if b.current = '.' ∧ '.' ∈ out then
        .fatal ("More than one decimal point found.")
      else
        parse_number_loop fuel (out ++ [b.current]) b.next
    else
      .ok out b

/-- parse_number, src/src/lexer/mod.rs lines 61-96: scan the run, then the
token is Float when the output contains a decimal point, Number otherwise. -/
def parse_number (fuel : Nat) (b : Buffer) : ScanResult Token :=
  match parse_number_loop fuel [] b with
  | .ok out b' =>
    .ok ⟨if '.' ∈ out then .Float else .Number, some out⟩ b'
  | .fatal m => .fatal m
  | .outOfFuel => .outOfFuel

/-- While-loop of parse_string, src/src/lexer/mod.rs lines 102-121: copy
characters until the delimiter, translating backslash escapes; the Rust
escape arms for backslash and for any other character both yield the
character itself and are collapsed here. -/
def parse_string_loop : Nat → Char → List Char → Buffer → ScanResult (List Char)
  | 0, _, _, _ => .outOfFuel
  | fuel + 1, delimeter, out, b =>
    if b.current ≠ delimeter then
      if b.current = '\\' then
        let b1 := b.next
        let curr := if b1.current = 'n' then '\n'
          else if b1.current = 't' then '\t'
          else b1.current
        parse_string_loop fuel delimeter (out ++ [curr]) b1.next
      else
        parse_string_loop fuel delimeter (out ++ [b.current]) b.next
    else
      .ok out b.next

/-- parse_string, src/src/lexer/mod.rs lines 98-129: skip the opening
delimiter, run the copy loop (which also consumes the closing delimiter),
and wrap the result as a String token. -/
def parse_string (fuel : Nat) (delimeter : Char) (b : Buffer) : ScanResult Token :=
  match parse_string_loop fuel delimeter [] b.next with
  | .ok out b' => .ok ⟨.String, some out⟩ b'
  | .fatal m => .fatal m
  | .outOfFuel => .outOfFuel

/-- parse_character, src/src/lexer/mod.rs lines 131-160: the fixed
single-character table; any character outside it is a fatal lexical error. -/
def parse_character (c : Char) : Except String TokenKind :=
  if c = ';' then .ok .Semi
  else if c = '=' then .ok .Equals
  else if c = '.' then .ok .Dot
  else if c = ',' then .ok .Comma
  else if c = '{' then .ok .BraceL
  else if c = '}' then .ok .BraceR
  else if c = '(' then .ok .PareL
  else if c = ')' then .ok .PareR
  else if c = '[' then .ok .BracketL
  else if c = ']' then .ok .BracketR
  else if c = '+' then .ok .Add
  else if c = '-' then .ok .Sub
  else if c = '/' then .ok .Div
  else if c = '*' then .ok .Multi
  else if c = '^' then .ok .Expo
  else .error ("Unexpected character `" ++ c.toString ++ "` found while parsing.")

/-- Overall lexing outcome. -/
inductive LexResult where
  | ok (tokens : List Token)
  | fatal (msg : String)
  | outOfFuel
deriving DecidableEq, Repr

/-- Main loop of lex, src/src/lexer/mod.rs lines 162-184: while not eof,
dispatch on the class of the current character. The Rust dispatch uses the
ASCII ranges a-z and A-Z plus underscore for identifiers, ASCII digits for
numbers, quote characters for strings, a whitespace guard, and the fixed
single-character table otherwise (pushing its token and then advancing). -/
def lex : Nat → List Token → Buffer → LexResult
  | 0, _, _ => .outOfFuel
  | fuel + 1, tokens, b =>
    if b.eof then .ok tokens
    else if ('a' ≤ b.current ∧ b.current ≤ 'z') ∨
        ('A' ≤ b.current ∧ b.current ≤ 'Z') ∨ b.current = '_' then
      match parse_idx_or_kw fuel b with
      | .ok tok b' => lex fuel (tokens ++ [tok]) b'
      | .fatal m => .fatal m
      | .outOfFuel => .outOfFuel
    else if b.current.isDigit then
      match parse_number fuel b with
      | .ok tok b' => lex fuel (tokens ++ [tok]) b'
      | .fatal m => .fatal m
      | .outOfFuel => .outOfFuel
    else if b.current = '\'' ∨ b.current = '"' then
      match parse_string fuel b.current b with
      | .ok tok b' => lex fuel (tokens ++ [tok]) b'
      | .fatal m => .fatal m
      | .outOfFuel => .outOfFuel
    else if b.current.isWhitespace then
      lex fuel tokens b.next
    else
      match parse_character b.current with
      | .ok k => lex fuel (tokens ++ [⟨k, none⟩]) b.next
      | .error m => .fatal m

/-- Lexer::new followed by lex, the external entry point: tokenize a whole
input within the given fuel budget. -/
def lexInput (fuel : Nat) (input : List Char) : LexResult :=
  lex fuel [] (Buffer.new input)

end Lexer

/-- Parse error kinds, src/src/parser/utils.rs lines 5-11. -/
inductive ErrorType where
  | ExpectedToken
  | UnexpectedToken
  | DuplicateArgument
  | InvalidAttribute
deriving DecidableEq, Repr

/-- Structured parse error, src/src/parser/utils.rs lines 13-18. -/
structure ParserError where
  type : ErrorType
  token : Token
  message : String
deriving DecidableEq, Repr

/-- Outcome of a parser routine: a value, a structured ParserError (Rust
Result::Err), a fatal runtime failure (Rust panic, from .expect or .unwrap),
or fuel exhaustion (the Rust code does not terminate within the budget). -/
inductive PResult (α : Type) where
  | ok (value : α)
  | err (e : ParserError)
  | fatal (msg : String)
  | outOfFuel

/-- Sequencing that propagates err, fatal and outOfFuel, mirroring the Rust
question-mark operator plus panic propagation. -/
def PResult.bind {α β : Type} (x : PResult α) (f : α → PResult β) : PResult β :=
  match x with
  | .ok a => f a
  | .err e => .err e
  | .fatal m => .fatal m
  | .outOfFuel => .outOfFuel

namespace Parser

/-- Buffer::consume for VecDeque, src/src/parser/utils.rs lines 47-49:
pop the front token; on an empty stream the Rust .expect aborts with the
message below. -/
def consume : List Token → PResult (Token × List Token)
  | [] => .fatal ("Unexpected end of tokens")
  | t :: rest => .ok (t, rest)

/-- Buffer::get, src/src/parser/utils.rs lines 51-53. -/
def get (tokens : List Token) (idx : Nat) : Option Token :=
  tokens.get? idx

/-- Buffer::peek, src/src/parser/utils.rs lines 55-57. -/
def peek (tokens : List Token) : Option Token :=
  tokens.head?

/-- Buffer::try_expect, src/src/parser/utils.rs lines 59-67: consume the
front token exactly when its kind matches. -/
def try_expect (tokens : List Token) (kind : TokenKind) : Option (Token × List Token) :=
  match tokens with
  | t :: rest => if t.kind = kind then some (t, rest) else none
  | [] => none

/-- Consume an optional token of the given kind and discard the result,
modelling a Rust statement that ignores the value of try_expect. -/
def try_semi (tokens : List Token) (kind : TokenKind) : List Token :=
  match try_expect tokens kind with
  | some (_, rest) => rest
  | none => tokens

/-- Buffer::expect, src/src/parser/utils.rs lines 69-86: like try_expect
but a mismatch becomes an ExpectedToken error carrying the offending token
(or a synthetic None token when the stream is empty). -/
def expect (tokens : List Token) (kind : TokenKind) : PResult (Token × List Token) :=
  match try_expect tokens kind with
  | some r => .ok r
  | none =>
    let token := (peek tokens).getD (Token.new .None none 0 0)
    .err ⟨.ExpectedToken, token,
      "Expected `" ++ kindDebugName kind ++ "` but encountered an `" ++
        kindDebugName token.kind ++ "`"⟩

/-- Rust Option::unwrap on a token payload; None aborts. -/
def unwrapValue : Option String → PResult String
  | some s => .ok s
  | none => .fatal ("called `Option::unwrap()` on a `None` value")

/-- Into Expr for Token, src/src/parser/types.rs lines 54-64; the panic arm
for non-literal kinds formats the offending token into its message, which is
abbreviated here. -/
def tokenIntoExpr (t : Token) : PResult Expr :=
  match t.kind with
  | .String => (unwrapValue t.value).bind fun v => .ok (.String v)
  | .Number => (unwrapValue t.value).bind fun v => .ok (.Number v)
  | .Float => (unwrapValue t.value).bind fun v => .ok (.Float v)
  | .Identifier => (unwrapValue t.value).bind fun v => .ok (.Identifier v)
  | _ => .fatal ("cannot convert token to an `Expr`")

/-- Into Stmt for Token, src/src/parser/types.rs lines 66-70. -/
def tokenIntoStmt (t : Token) : PResult Stmt :=
  (tokenIntoExpr t).bind fun e => .ok (.Expr e)

/-- Key lookup in the parameter map, modelling HashMap::contains_key. The
Rust HashMap is modelled as an association list; only its content is
meaningful, since the iteration order of std HashMap is unspecified. -/
def amapContainsKey (m : List (String × Option String)) (k : String) : Bool :=
  m.any fun p => p.1 == k

/-- HashMap::insert modelled on the association list: replace the value if
the key is present, otherwise append the binding. -/
def amapInsert (m : List (String × Option String)) (k : String)
    (v : Option String) : List (String × Option String) :=
  if amapContainsKey m k then
    m.map fun p => if p.1 == k then (k, v) else p
  else
    m ++ [(k, v)]

/-- Loop of Parser::args, src/src/parser/mod.rs lines 221-259: either an
ellipsis (optionally a comma) closed by the right parenthesis, marking the
list variadic, or an identifier with an optional colon-type annotation,
rejected as DuplicateArgument when uniqueness is requested and the name is
already bound, then either the closing parenthesis or a comma and another
round. -/
def args_loop : Nat → Bool → Bool → List (String × Option String) →
    List Token → PResult ((List (String × Option String) × Bool) × List Token)
  | 0, _, _, _, _ => .outOfFuel
  | fuel + 1, with_types, should_be_unique, argsAcc, tokens =>
    match try_expect tokens .Ellipsis with
    | some (_, t1) =>
      let t2 := try_semi t1 .Comma
      (expect t2 .PareR).bind fun (_, t3) =>
      .ok ((argsAcc, true), t3)
    | none =>
      (expect tokens .Identifier).bind fun (arg, t1) =>
      (unwrapValue arg.value).bind fun name =>
      if should_be_unique && amapContainsKey argsAcc name then
        .err ⟨.DuplicateArgument, arg, "Duplicate argument `" ++ name ++ "`"⟩
      else
        (if with_types then
          match try_expect t1 .Colon with
          | some (_, t2) =>
            (expect t2 .Identifier).bind fun (tyTok, t3) =>
            (unwrapValue tyTok.value).bind fun ty =>
            .ok (some ty, t3)
          | none => .ok (none, t1)
        else
          .ok (none, t1)).bind fun (type_, t4) =>
        let argsAcc' := amapInsert argsAcc name type_
        match try_expect t4 .PareR with
        | some (_, t5) => .ok ((argsAcc', false), t5)
        | none =>
          (expect t4 .Comma).bind fun (_, t5) =>
          args_loop fuel with_types should_be_unique argsAcc' t5

/-- Parser::args, src/src/parser/mod.rs lines 207-262: open parenthesis,
then the empty list fast path, otherwise the loop above starting from the
empty mapping and a false variadic flag. -/
def args (fuel : Nat) (with_types should_be_unique : Bool)
    (tokens : List Token) :
    PResult ((List (String × Option String) × Bool) × List Token) :=
  (expect tokens .PareL).bind fun (_, t1) =>
  match try_expect t1 .PareR with
  | some (_, t2) => .ok (([], false), t2)
  | none => args_loop fuel with_types should_be_unique [] t1

/-- Parser::attribute, src/src/parser/mod.rs lines 264-272:
identifier, open parenthesis, string literal, close parenthesis. -/
def attribute_ (tokens : List Token) : PResult (Stmt × List Token) :=
  (expect tokens .Identifier).bind fun (n, t1) =>
  (unwrapValue n.value).bind fun name =>
  (expect t1 .PareL).bind fun (_, t2) =>
  (expect t2 .String).bind fun (v, t3) =>
  (unwrapValue v.value).bind fun value =>
  (expect t3 .PareR).bind fun (_, t4) =>
  .ok (.Attribute name value, t4)

mutual

/-- Parser::primary, src/src/parser/mod.rs lines 37-63. -/
def primary : Nat → List Token → PResult (Stmt × List Token)
  | 0, _ => .outOfFuel
  | fuel + 1, tokens =>
    (consume tokens).bind fun (token, t1) =>
    match token.kind with
    | .String => (tokenIntoStmt token).bind fun s => .ok (s, t1)
    | .Number => (tokenIntoStmt token).bind fun s => .ok (s, t1)
    | .Float => (tokenIntoStmt token).bind fun s => .ok (s, t1)
    | .Identifier =>
      match peek t1 with
      | some peeked =>
        if peeked.kind = .PareL then
          (unwrapValue token.value).bind fun name => call fuel name t1
        else
          (tokenIntoStmt token).bind fun s => .ok (s, t1)
      | none => (tokenIntoStmt token).bind fun s => .ok (s, t1)
    | .PareL =>
      (expr fuel t1).bind fun (e, t2) =>
      (expect t2 .PareR).bind fun (_, t3) =>
      .ok (e, t3)
    | k =>
      .err ⟨.UnexpectedToken, token,
        "Unexpected token occurred `" ++ kindDebugName k ++ "`"⟩

/-- Parser::binary, src/src/parser/mod.rs lines 65-90: the
precedence-climbing loop, written as tail recursion on the same minimum
precedence; each round consumes an operator at or above the minimum, parses
the right-hand primary, climbs into a nested call with minimum one above the
operator precedence when the following token binds strictly tighter, and
folds the two sides into a Binary node. -/
def binary : Nat → Stmt → Int → List Token → PResult (Stmt × List Token)
  | 0, _, _, _ => .outOfFuel
  | fuel + 1, lhs, precedence, tokens =>
    match peek tokens with
    | none => .ok (lhs, tokens)
    | some token =>
      if token.kind.precedence < precedence then .ok (lhs, tokens)
      else
        (consume tokens).bind fun (op, t1) =>
        (primary fuel t1).bind fun (rhs, t2) =>
        (match peek t2 with
          | some token2 =>
            if op.kind.precedence < token2.kind.precedence then
              binary fuel rhs (op.kind.precedence + 1) t2
            else .ok (rhs, t2)
          | none => .ok (rhs, t2)).bind fun (rhs', t3) =>
        binary fuel (.Expr (.Binary lhs op rhs')) precedence t3

/-- Parser::expr, src/src/parser/mod.rs lines 92-97: a primary followed by
the climbing loop at minimum precedence 0. -/
def expr : Nat → List Token → PResult (Stmt × List Token)
  | 0, _ => .outOfFuel
  | fuel + 1, tokens =>
    (primary fuel tokens).bind fun (p, t1) =>
    binary fuel p 0 t1

/-- Parser::call, src/src/parser/mod.rs lines 182-205 (entry): the open
parenthesis, the zero-argument fast path, otherwise the argument loop. -/
def call : Nat → String → List Token → PResult (Stmt × List Token)
  | 0, _, _ => .outOfFuel
  | fuel + 1, name, tokens =>
    (expect tokens .PareL).bind fun (_, t1) =>
    match try_expect t1 .PareR with
    | some (_, t2) => .ok (.Call name [], t2)
    | none => call_loop fuel name [] t1

/-- Loop of Parser::call, src/src/parser/mod.rs lines 191-204: one
expression argument per round, closed by the right parenthesis (then an
optional semicolon) or continued by a comma. -/
def call_loop : Nat → String → List Stmt → List Token → PResult (Stmt × List Token)
  | 0, _, _, _ => .outOfFuel
  | fuel + 1, name, argsAcc, tokens =>
    (expr fuel tokens).bind fun (arg, t1) =>
    let argsAcc' := argsAcc ++ [arg]
    match try_expect t1 .PareR with
    | some (_, t2) => .ok (.Call name argsAcc', try_semi t2 .Semi)
    | none =>
      (expect t1 .Comma).bind fun (_, t2) =>
      call_loop fuel name argsAcc' t2

/-- Parser::block, src/src/parser/mod.rs lines 99-114 (entry): the opening
brace, then the statement loop. -/
def block : Nat → List Token → PResult (List Stmt × List Token)
  | 0, _ => .outOfFuel
  | fuel + 1, tokens =>
    (expect tokens .BraceL).bind fun (_, t1) =>
    block_loop fuel [] t1

/-- Loop of Parser::block, src/src/parser/mod.rs lines 104-113: statements
until a closing brace is peeked (or the stream ends), then expect the
closing brace. -/
def block_loop : Nat → List Stmt → List Token → PResult (List Stmt × List Token)
  | 0, _, _ => .outOfFuel
  | fuel + 1, stmtsAcc, tokens =>
    match peek tokens with
    | some token =>
      if token.kind = .BraceR then
        (expect tokens .BraceR).bind fun (_, t1) => .ok (stmtsAcc, t1)
      else
        (stmt fuel token tokens).bind fun (s, t1) =>
        block_loop fuel (stmtsAcc ++ [s]) t1
    | none =>
      (expect tokens .BraceR).bind fun (_, t1) => .ok (stmtsAcc, t1)

/-- Parser::stmt, src/src/parser/mod.rs lines 116-127: dispatch on the kind
of the peeked token; a Semi token yields Stmt::Empty without consuming
anything. -/
def stmt : Nat → Token → List Token → PResult (Stmt × List Token)
  | 0, _, _ => .outOfFuel
  | fuel + 1, token, tokens =>
    match token.kind with
    | .Func => function fuel tokens
    | .Let => variable_ fuel tokens
    | .Return => return_ fuel tokens
    | .Identifier => ident fuel token tokens
    | .Semi => .ok (.Empty, tokens)
    | _ => expr fuel tokens

/-- Parser::ident, src/src/parser/mod.rs lines 129-137: lookahead at offset
1 decides between an assignment and a bare expression. -/
def ident : Nat → Token → List Token → PResult (Stmt × List Token)
  | 0, _, _ => .outOfFuel
  | fuel + 1, _token, tokens =>
    match get tokens 1 with
    | some eq =>
      if eq.kind = .Equals then assignment fuel tokens
      else expr fuel tokens
    | none => expr fuel tokens

/-- Parser::assignment, src/src/parser/mod.rs lines 139-153: consume the
identifier and the equals sign, parse the value, require a semicolon. -/
def assignment : Nat → List Token → PResult (Stmt × List Token)
  | 0, _ => .outOfFuel
  | fuel + 1, tokens =>
    (consume tokens).bind fun (token, t1) =>
    (unwrapValue token.value).bind fun name =>
    (consume t1).bind fun (_, t2) =>
    (expr fuel t2).bind fun (value, t3) =>
    (expect t3 .Semi).bind fun (_, t4) =>
    .ok (.Assignment name value, t4)

/-- Parser::return_, src/src/parser/mod.rs lines 155-162. -/
def return_ : Nat → List Token → PResult (Stmt × List Token)
  | 0, _ => .outOfFuel
  | fuel + 1, tokens =>
    (expect tokens .Return).bind fun (_, t1) =>
    (expr fuel t1).bind fun (e, t2) =>
    .ok (.Return e, try_semi t2 .Semi)

/-- Parser::variable, src/src/parser/mod.rs lines 164-180 (named variable_
because variable is reserved in Lean). -/
def variable_ : Nat → List Token → PResult (Stmt × List Token)
  | 0, _ => .outOfFuel
  | fuel + 1, tokens =>
    (expect tokens .Let).bind fun (_, t1) =>
    let mutRes := try_expect t1 .Mut
    let is_mut := mutRes.isSome
    let t2 := match mutRes with
      | some (_, t) => t
      | none => t1
    (expect t2 .Identifier).bind fun (nameTok, t3) =>
    (unwrapValue nameTok.value).bind fun name =>
    (expect t3 .Equals).bind fun (_, t4) =>
    (expr fuel t4).bind fun (value, t5) =>
    .ok (.Variable name value is_mut, try_semi t5 .Semi)

/-- Parser::function, src/src/parser/mod.rs lines 274-317: name and typed
unique parameter list; an at-sign selects the external-declaration path,
whose attribute must be named requires and which returns an empty body
without consuming any braces; otherwise a brace block is parsed. The
non-Attribute arm of the Rust if-let falls through to body parsing and is
reproduced even though attribute_ can only return an Attribute. -/
def function : Nat → List Token → PResult (Stmt × List Token)
  | 0, _ => .outOfFuel
  | fuel + 1, tokens =>
    (expect tokens .Func).bind fun (_, t1) =>
    (expect t1 .Identifier).bind fun (nameTok, t2) =>
    (unwrapValue nameTok.value).bind fun name =>
    (args fuel true true t2).bind fun ((argsMap, is_varadic), t3) =>
    match try_expect t3 .At with
    | some (external, t4) =>
      (attribute_ t4).bind fun (attr, t5) =>
      (match attr with
        | .Attribute attr_name value =>
          if attr_name ≠ "requires" then
            .err ⟨.InvalidAttribute, external,
              "Invalid attribute `" ++ attr_name ++ "`, expected `requires`"⟩
          else
            .ok (Stmt.Function name argsMap (some value) is_varadic [], t5)
        | _ =>
          (block fuel t5).bind fun (body, t6) =>
          .ok (Stmt.Function name argsMap none is_varadic body, try_semi t6 .Semi))
    | none =>
      (block fuel t3).bind fun (body, t4) =>
      .ok (Stmt.Function name argsMap none is_varadic body, try_semi t4 .Semi)

/-- Loop of Parser::parse, src/src/parser/mod.rs lines 27-35: while a token
can be peeked, run stmt on it and push the result. -/
def parse_loop : Nat → List Stmt → List Token → PResult (List Stmt)
  | 0, _, _ => .outOfFuel
  | fuel + 1, stmtsAcc, tokens =>
    match peek tokens with
    | none => .ok stmtsAcc
    | some token =>
      (stmt fuel token tokens).bind fun (s, t1) =>
      parse_loop fuel (stmtsAcc ++ [s]) t1

end

/-- Parser::parse, the external entry point. -/
def parse (fuel : Nat) (tokens : List Token) : PResult (List Stmt) :=
  parse_loop fuel [] tokens

end Parser

/-- Token carrying only a kind (operators and punctuation), at position 0:0;
positions are irrelevant to the properties below. -/
def kindToken (k : TokenKind) : Token :=
  ⟨k, none, 0, 0⟩

/-- Number token with a payload. -/
def numToken (a : String) : Token :=
  ⟨.Number, some a, 0, 0⟩

/-- Identifier token with a payload. -/
def identToken (s : String) : Token :=
  ⟨.Identifier, some s, 0, 0⟩

/-- String-literal token with a payload. -/
def stringToken (s : String) : Token :=
  ⟨.String, some s, 0, 0⟩

/-- The five binary arithmetic operators of the language. -/
inductive Rop where
  | add
  | sub
  | mul
  | div
  | pow
deriving DecidableEq, Repr

/-- The token kind of each arithmetic operator. -/
def Rop.kind : Rop → TokenKind
  | .add => .Add
  | .sub => .Sub
  | .mul => .Multi
  | .div => .Div
  | .pow => .Expo

/-- Token list for a tail of an arithmetic expression: operator then number,
repeated. -/
def renderOps : List (Rop × String) → List Token
  | [] => []
  | (o, a) :: rest => kindToken o.kind :: numToken a :: renderOps rest

/-- The statement a number literal parses to. -/
def atomStmt (a : String) : Stmt :=
  .Expr (.Number a)

mutual

/-- In-order list of the operator kinds of a parsed expression tree. -/
def stmtOps : Stmt → List TokenKind
  | .Expr e => exprOps e
  | _ => []

def exprOps : Expr → List TokenKind
  | .Binary l op r => stmtOps l ++ op.kind :: stmtOps r
  | _ => []

end

mutual

/-- In-order list of the number-literal payloads of a parsed expression
tree. -/
def stmtAtoms : Stmt → List String
  | .Expr e => exprAtoms e
  | _ => []

def exprAtoms : Expr → List String
  | .Binary l _ r => stmtAtoms l ++ stmtAtoms r
  | .Number a => [a]
  | _ => []

end

mutual

/-- Reference grouping discipline of a precedence-climbing parse, stated
from the specification: in every Binary node, each operator in the left
subtree binds at least as tightly as the node operator (equal precedence
groups left-associatively), and each operator in the right subtree binds
strictly tighter (higher precedence on the right is nested below). -/
def stmtWellGrouped : Stmt → Prop
  | .Expr e => exprWellGrouped e
  | _ => True

def exprWellGrouped : Expr → Prop
  | .Binary l op r =>
    stmtWellGrouped l ∧ stmtWellGrouped r ∧
      (∀ k ∈ stmtOps l, op.kind.precedence ≤ k.precedence) ∧
      (∀ k ∈ stmtOps r, op.kind.precedence < k.precedence)
  | _ => True

end

/-- Token list of one function parameter: name, optionally colon and type. -/
def paramTokens : String × Option String → List Token
  | (n, none) => [identToken n]
  | (n, some ty) => [identToken n, kindToken .Colon, identToken ty]

/-- Token list of a nonempty parameter-list body: parameters separated by
commas and closed by the right parenthesis. -/
def renderParamsInner : List (String × Option String) → List Token
  | [] => [kindToken .PareR]
  | [p] => paramTokens p ++ [kindToken .PareR]
  | p :: rest => paramTokens p ++ kindToken .Comma :: renderParamsInner rest

/-- Token list of a full parameter list, opening parenthesis included. -/
def renderParams (ps : List (String × Option String)) : List Token :=
  kindToken .PareL :: renderParamsInner ps

/-- Token list of a requires-style attribute: at-sign, name, parenthesized
string literal. -/
def attrTokens (a s : String) : List Token :=
  [kindToken .At, identToken a, kindToken .PareL, stringToken s, kindToken .PareR]

/-- Characters that continue a number scan: ASCII digit, underscore, or the
decimal point. -/
def numberChar (c : Char) : Prop :=
  c.isDigit = true ∨ c = '_' ∨ c = '.'

/-- Removal of every underscore from a scanned run, the payload the
specification promises for numeric literals. -/
def stripUnderscores : List Char → List Char
  | [] => []
  | c :: rest => if c = '_' then stripUnderscores rest else c :: stripUnderscores rest

instance : DecidablePred numberChar := fun c => by
  unfold numberChar
  infer_instance

/-- The parse loop never consumes a Semi token sitting at statement
position: stmt returns Stmt.Empty with the stream unchanged, so the loop
retries the same token at every remaining fuel level. -/
theorem parse_loop_semi_stuck : ∀ (fuel : Nat) (acc : List Stmt),
    Parser.parse_loop fuel acc [kindToken .Semi] = .outOfFuel := by
  intro fuel
  induction fuel with
  | zero => intro acc; rfl
  | succ f ih =>
    intro acc
    cases f with
    | zero => rfl
    | succ g => exact ih (acc ++ [Stmt.Empty])

/-- Claim C3: for every finite token sequence Parser::parse terminates,
returning the statements or the first error; in particular a stray
statement terminator is a no-op and parsing proceeds past it. REFUTED: on
the one-token stream consisting of a Semi token, parse exhausts every fuel
budget, because stmt yields Stmt::Empty without consuming the token and
the peek-driven loop retries it forever. -/
theorem uma_c3 : ∀ fuel : Nat, Parser.parse fuel [kindToken .Semi] = .outOfFuel :=
  fun fuel => parse_loop_semi_stuck fuel []

/-- Witness for C3 at a concrete fuel budget. -/
theorem uma_c3_witness : Parser.parse 97 [kindToken .Semi] = .outOfFuel :=
  uma_c3 97

/-- Claim C2: the fatal consume-on-empty branch is claimed unreachable from
parse. REFUTED: on the token sequence of the source text `1 +`, binary
consumes the operator and asks primary for a right-hand side, and primary
calls consume on the empty stream, aborting with the fatal message. -/
theorem uma_c2 :
    Parser.parse 10 [numToken ("1"), kindToken .Add] =
      .fatal ("Unexpected end of tokens") :=
  rfl

/-- Claim C5: the single-character table is claimed to map a colon to
Colon, an at-sign to At and the ellipsis to Ellipsis. REFUTED: the lexer
aborts on a colon and on an at-sign with the unrecognized-character panic,
and lexes three consecutive dots as three Dot tokens. The TokenKind
enumeration declares Colon, At and Ellipsis and the parser requires them,
so the lexer cannot produce what the parser consumes. -/
theorem uma_c5 :
    Lexer.lexInput 3 [':'] =
      .fatal ("Unexpected character `:` found while parsing.") ∧
    Lexer.lexInput 3 ['@'] =
      .fatal ("Unexpected character `@` found while parsing.") ∧
    Lexer.lexInput 7 ['.', '.', '.'] =
      .ok [⟨.Dot, none⟩, ⟨.Dot, none⟩, ⟨.Dot, none⟩] :=
  ⟨rfl, rfl, rfl⟩

/-- A buffer whose characters are exhausted mid-identifier makes the
identifier scan loop forever: Buffer::next only sets the eof flag, leaving
current unchanged, and the loop never tests eof. -/
theorem idx_loop_empty_stuck : ∀ (fuel : Nat) (out : List Char) (c : Char)
    (eofb : Bool) (l col : Nat),
    (Lexer.isAlphanumeric c || c = '_') = true →
    Lexer.parse_idx_or_kw_loop fuel out ⟨[], eofb, c, l, col⟩ = .outOfFuel := by
  intro fuel
  induction fuel with
  | zero => intro out c eofb l col _; rfl
  | succ f ih =>
    intro out c eofb l col hc
    have hstep : Lexer.parse_idx_or_kw_loop (f + 1) out ⟨[], eofb, c, l, col⟩ =
        Lexer.parse_idx_or_kw_loop f (out ++ [c]) ⟨[], true, c, l, col⟩ := by
      simp only [Lexer.parse_idx_or_kw_loop, hc, if_true, Lexer.Buffer.next]
    rw [hstep]
    exact ih (out ++ [c]) c true l col hc

/-- The identifier scan started on the input abc runs out of any fuel. -/
theorem idx_loop_abc : ∀ (fuel : Nat) (out : List Char),
    Lexer.parse_idx_or_kw_loop fuel out ⟨['b', 'c'], false, 'a', 1, 0⟩ =
      .outOfFuel := by
  intro fuel out
  match fuel with
  | 0 => rfl
  | 1 => rfl
  | f + 2 =>
    exact idx_loop_empty_stuck f ((out ++ ['a']) ++ ['b']) 'c' false 1 2 (by decide)

/-- Wrapper version of the previous lemma, at the parse_idx_or_kw level. -/
theorem idx_abc_wrapper : ∀ fuel : Nat,
    Lexer.parse_idx_or_kw fuel ⟨['b', 'c'], false, 'a', 1, 0⟩ = .outOfFuel := by
  intro fuel
  unfold Lexer.parse_idx_or_kw
  rw [idx_loop_abc fuel []]

/-- Claim C4: Lexer::lex is claimed to terminate on every finite input,
including inputs ending mid-token. REFUTED: on the input abc the lexer
exhausts every fuel budget; after the buffer is exhausted, current stays at
the final character and the identifier loop keeps appending it. -/
theorem uma_c4 : ∀ fuel : Nat, Lexer.lexInput fuel ['a', 'b', 'c'] = .outOfFuel := by
  intro fuel
  cases fuel with
  | zero => rfl
  | succ f =>
    calc Lexer.lexInput (f + 1) ['a', 'b', 'c']
        = (match Lexer.parse_idx_or_kw f ⟨['b', 'c'], false, 'a', 1, 0⟩ with
            | .ok tok b' => Lexer.lex f ([] ++ [tok]) b'
            | .fatal m => .fatal m
            | .outOfFuel => .outOfFuel) := rfl
      _ = .outOfFuel := by rw [idx_abc_wrapper f]

/-- Witness for C4 at a concrete fuel budget. -/
theorem uma_c4_witness : Lexer.lexInput 1000 ['a', 'b', 'c'] = .outOfFuel :=
  uma_c4 1000

/-- Claim C6: a function declaration whose parameter list is immediately
followed by a requires attribute parses to a Function statement with that
string as external dependency and an empty body, leaving the stream exactly
at the tokens after the attribute; any other attribute name fails with
InvalidAttribute. The final conjunct checks, on the two-external-declarations
test program taken from the repository test suite, that parsing resumes
correctly at the next top-level statement. -/
theorem uma_c6 :
    (∀ (fuel : Nat) (fname aname s : String) (ts rest : List Token)
        (m : List (String × Option String)) (vr : Bool),
      Parser.args fuel true true ts = .ok ((m, vr), attrTokens aname s ++ rest) →
      (aname = "requires" →
        Parser.function (fuel + 1) (kindToken .Func :: identToken fname :: ts) =
          .ok (Stmt.Function fname m (some s) vr [], rest)) ∧
      (aname ≠ "requires" →
        ∃ e, Parser.function (fuel + 1) (kindToken .Func :: identToken fname :: ts) =
            .err e ∧ e.type = .InvalidAttribute)) ∧
    Parser.parse 12
        ([kindToken .Func, identToken ("printf"), kindToken .PareL,
          identToken ("fmt"), kindToken .Colon, identToken ("String"),
          kindToken .PareR] ++ attrTokens ("requires") ("stdio.h") ++
          [kindToken .Func, identToken ("println"), kindToken .PareL,
            identToken ("fmt"), kindToken .Colon, identToken ("String"),
            kindToken .Comma, kindToken .Ellipsis, kindToken .PareR] ++
          attrTokens ("requires") ("stdio.h")) =
      .ok [Stmt.Function ("printf") [(("fmt"), some ("String"))] (some ("stdio.h")) false [],
        Stmt.Function ("println") [(("fmt"), some ("String"))] (some ("stdio.h")) true []] := by
  constructor
  · intro fuel fname aname s ts rest m vr h
    have hbody : Parser.function (fuel + 1) (kindToken .Func :: identToken fname :: ts) =
        if aname ≠ "requires" then
          .err ⟨.InvalidAttribute, kindToken .At,
            "Invalid attribute `" ++ aname ++ "`, expected `requires`"⟩
        else
          .ok (Stmt.Function fname m (some s) vr [], rest) := by
      simp only [Parser.function, Parser.expect, Parser.try_expect, Parser.peek,
        Parser.unwrapValue, PResult.bind, kindToken, identToken, stringToken,
        attrTokens, Parser.attribute_, List.cons_append, List.nil_append, h,
        if_true, if_pos, reduceCtorEq, reduceIte]
    constructor
    · intro ha
      subst ha
      rw [hbody]
      simp
    · intro ha
      refine ⟨⟨.InvalidAttribute, kindToken .At,
        "Invalid attribute `" ++ aname ++ "`, expected `requires`"⟩, ?_, rfl⟩
      rw [hbody, if_pos ha]
  · rfl

/-- Witness for C6: the general part applied to the parameter list (fmt :
String) and the dependency string stdio.h. -/
theorem uma_c6_witness :
    Parser.function 2
        (kindToken .Func :: identToken ("printf") ::
          ([kindToken .PareL, identToken ("fmt"), kindToken .Colon,
            identToken ("String"), kindToken .PareR] ++
            attrTokens ("requires") ("stdio.h"))) =
      .ok (Stmt.Function ("printf") [(("fmt"), some ("String"))] (some ("stdio.h")) false [], []) :=
  (uma_c6.1 1 ("printf") ("requires") ("stdio.h")
      ([kindToken .PareL, identToken ("fmt"), kindToken .Colon,
        identToken ("String"), kindToken .PareR] ++
        attrTokens ("requires") ("stdio.h"))
      [] [(("fmt"), some ("String"))] false (by rfl)).1 rfl

/-- Membership reading of the contains_key model. -/
theorem amapContainsKey_iff (m : List (String × Option String)) (k : String) :
    Parser.amapContainsKey m k = true ↔ k ∈ m.map Prod.fst := by
  simp [Parser.amapContainsKey, List.any_eq_true, List.mem_map]

/-- Inserting a fresh key appends the binding. -/
theorem amapInsert_fresh (m : List (String × Option String)) (k : String)
    (v : Option String) (h : Parser.amapContainsKey m k = false) :
    Parser.amapInsert m k v = m ++ [(k, v)] := by
  simp [Parser.amapInsert, h]

/-- A rendered parameter list always starts with the identifier token of
its first parameter. -/
theorem renderParamsInner_head (n : String) (ty : Option String)
    (rest : List (String × Option String)) :
    ∃ tl, renderParamsInner ((n, ty) :: rest) = identToken n :: tl := by
  rcases rest with _ | ⟨q, rs⟩ <;> rcases ty with _ | t <;> exact ⟨_, rfl⟩

/-- Loop half of claim C7: once the pending parameters extend the keys
already bound into a list with a repetition, the args loop fails with
DuplicateArgument, whatever the declared types are. -/
theorem args_loop_duplicate : ∀ (ps : List (String × Option String))
    (m : List (String × Option String)) (fuel : Nat),
    ps.length + 1 ≤ fuel → ps ≠ [] →
    (m.map Prod.fst).Nodup →
    ¬ ((m.map Prod.fst) ++ ps.map Prod.fst).Nodup →
    ∃ e, Parser.args_loop fuel true true m (renderParamsInner ps) = .err e ∧
      e.type = .DuplicateArgument := by
  intro ps
  induction ps with
  | nil => intro m fuel _ hne; exact absurd rfl hne
  | cons p rest ih =>
    obtain ⟨n, ty⟩ := p
    intro m fuel hfuel _ hnd hdup
    obtain ⟨f, rfl⟩ : ∃ f, fuel = f + 1 := ⟨fuel - 1, by omega⟩
    by_cases hmem : n ∈ m.map Prod.fst
    · have hc : Parser.amapContainsKey m n = true := (amapContainsKey_iff m n).2 hmem
      refine ⟨⟨.DuplicateArgument, identToken n, "Duplicate argument `" ++ n ++ "`"⟩,
        ?_, rfl⟩
      cases rest with
      | nil =>
        cases ty with
        | none =>
          simp [Parser.args_loop, renderParamsInner, paramTokens, Parser.try_expect,
            Parser.expect, Parser.unwrapValue, PResult.bind, identToken, kindToken, hc]
        | some t =>
          simp [Parser.args_loop, renderParamsInner, paramTokens, Parser.try_expect,
            Parser.expect, Parser.unwrapValue, PResult.bind, identToken, kindToken, hc]
      | cons q rs =>
        cases ty with
        | none =>
          simp [Parser.args_loop, renderParamsInner, paramTokens, Parser.try_expect,
            Parser.expect, Parser.unwrapValue, PResult.bind, identToken, kindToken, hc]
        | some t =>
          simp [Parser.args_loop, renderParamsInner, paramTokens, Parser.try_expect,
            Parser.expect, Parser.unwrapValue, PResult.bind, identToken, kindToken, hc]
    · have hc : Parser.amapContainsKey m n = false := by
        cases h : Parser.amapContainsKey m n
        · rfl
        · exact absurd ((amapContainsKey_iff m n).1 h) hmem
      cases rest with
      | nil =>
        exfalso
        apply hdup
        have : (m.map Prod.fst ++ [(n, ty)].map Prod.fst) =
            m.map Prod.fst ++ [n] := by simp
        rw [this]
        simp [List.nodup_append, hnd, hmem]
      | cons q rs =>
        have hkeys : ((Parser.amapInsert m n ty).map Prod.fst) =
            m.map Prod.fst ++ [n] := by
          rw [amapInsert_fresh m n ty hc]; simp
        have hrec := ih (Parser.amapInsert m n ty) f
          (by simp only [List.length_cons] at hfuel ⊢; omega)
          (by simp)
          (by rw [hkeys]; simp [List.nodup_append, hnd, hmem])
          (by
            rw [hkeys]
            intro hcontra
            apply hdup
            simpa [List.append_assoc] using hcontra)
        obtain ⟨e, he, htype⟩ := hrec
        refine ⟨e, ?_, htype⟩
        cases ty with
        | none =>
          simpa [Parser.args_loop, renderParamsInner, paramTokens, Parser.try_expect,
            Parser.expect, Parser.unwrapValue, PResult.bind, identToken, kindToken,
            hc] using he
        | some t =>
          simpa [Parser.args_loop, renderParamsInner, paramTokens, Parser.try_expect,
            Parser.expect, Parser.unwrapValue, PResult.bind, identToken, kindToken,
            hc] using he

/-- Claim C7: a parameter list containing the same name twice always fails
with DuplicateArgument, independently of the declared types of either
occurrence. -/
theorem uma_c7 : ∀ (ps : List (String × Option String)),
    ¬ (ps.map Prod.fst).Nodup →
    ∃ e, Parser.args (ps.length + 2) true true (renderParams ps) = .err e ∧
      e.type = .DuplicateArgument := by
  intro ps hdup
  cases ps with
  | nil => simp at hdup
  | cons p rest =>
    obtain ⟨n, ty⟩ := p
    obtain ⟨e, he, htype⟩ := args_loop_duplicate ((n, ty) :: rest) []
      (((n, ty) :: rest).length + 2) (by omega) (by simp) (by simp)
      (by simpa using hdup)
    obtain ⟨tl, htl⟩ := renderParamsInner_head n ty rest
    refine ⟨e, ?_, htype⟩
    rw [htl] at he
    simpa [Parser.args, renderParams, Parser.expect, Parser.try_expect,
      PResult.bind, kindToken, identToken, htl] using he

/-- Witness for C7: the list (a, a : Int) is rejected. -/
theorem uma_c7_witness :
    ∃ e, Parser.args 4 true true
        (renderParams [(("a"), none), (("a"), some ("Int"))]) = .err e ∧
      e.type = .DuplicateArgument :=
  uma_c7 [(("a"), none), (("a"), some ("Int"))] (by simp)

/-- Inversion of PResult.bind on a successful outcome. -/
theorem bind_eq_ok {α β : Type} {x : PResult α} {f : α → PResult β} {y : β}
    (h : x.bind f = .ok y) : ∃ a, x = .ok a ∧ f a = .ok y := by
  cases x with
  | ok a => exact ⟨a, rfl, h⟩
  | err e => simp [PResult.bind] at h
  | fatal m => simp [PResult.bind] at h
  | outOfFuel => simp [PResult.bind] at h

/-- Inversion of try_expect on success: the stream started with a token of
the requested kind. -/
theorem try_expect_eq_some {ts : List Token} {k : TokenKind} {t : Token}
    {rest : List Token} (h : Parser.try_expect ts k = some (t, rest)) :
    ts = t :: rest ∧ t.kind = k := by
  cases ts with
  | nil => simp [Parser.try_expect] at h
  | cons a as =>
    by_cases hk : a.kind = k
    · simp [Parser.try_expect, hk] at h
      obtain ⟨rfl, rfl⟩ := h
      exact ⟨rfl, hk⟩
    · simp [Parser.try_expect, hk] at h

/-- Inversion of expect on success. -/
theorem expect_eq_ok {ts : List Token} {k : TokenKind} {t : Token}
    {rest : List Token} (h : Parser.expect ts k = .ok (t, rest)) :
    ts = t :: rest ∧ t.kind = k := by
  unfold Parser.expect at h
  cases hte : Parser.try_expect ts k with
  | some r =>
    rw [hte] at h
    obtain ⟨t', rest'⟩ := r
    simp at h
    obtain ⟨rfl, rfl⟩ := h
    exact try_expect_eq_some hte
  | none => rw [hte] at h; simp at h

/-- Loop half of claim C8: whenever the args loop succeeds with the
variadic flag set, the tokens it consumed end with the ellipsis marker, at
most one comma, and the closing parenthesis, in that order. -/
theorem args_loop_variadic : ∀ (fuel : Nat) (wt su : Bool)
    (m res : List (String × Option String)) (ts rest : List Token),
    Parser.args_loop fuel wt su m ts = .ok ((res, true), rest) →
    ∃ pre el c pr, ts = pre ++ el :: c ++ pr :: rest ∧ el.kind = .Ellipsis ∧
      pr.kind = .PareR ∧ (c = [] ∨ ∃ cm, c = [cm] ∧ cm.kind = .Comma) := by
  intro fuel
  induction fuel with
  | zero => intro wt su m res ts rest h; simp [Parser.args_loop] at h
  | succ f ih =>
    intro wt su m res ts rest h
    rw [Parser.args_loop] at h
    cases hEl : Parser.try_expect ts .Ellipsis with
    | some p =>
      obtain ⟨el, t1⟩ := p
      obtain ⟨rfl, hElkind⟩ := try_expect_eq_some hEl
      rw [hEl] at h
      obtain ⟨⟨pr, t3⟩, hex, hok⟩ := bind_eq_ok h
      simp at hok
      obtain ⟨rfl, rfl⟩ := hok
      obtain ⟨hsemi, hPrkind⟩ := expect_eq_ok hex
      cases hCm : Parser.try_expect t1 .Comma with
      | some q =>
        obtain ⟨cm, t2⟩ := q
        obtain ⟨rfl, hCmkind⟩ := try_expect_eq_some hCm
        simp only [Parser.try_semi, hCm] at hsemi
        subst hsemi
        exact ⟨[], el, [cm], pr, by simp, hElkind, hPrkind, .inr ⟨cm, rfl, hCmkind⟩⟩
      | none =>
        simp only [Parser.try_semi, hCm] at hsemi
        subst hsemi
        exact ⟨[], el, [], pr, by simp, hElkind, hPrkind, .inl rfl⟩
    | none =>
      rw [hEl] at h
      obtain ⟨⟨arg, t1⟩, hexArg, h2⟩ := bind_eq_ok h
      obtain ⟨hts, hArgKind⟩ := expect_eq_ok hexArg
      dsimp only at h2
      obtain ⟨nm, hv, h3⟩ := bind_eq_ok h2
      by_cases hdup : (su && Parser.amapContainsKey m nm) = true
      · rw [if_pos hdup] at h3
        simp at h3
      · rw [if_neg hdup] at h3
        obtain ⟨⟨ty0, t4⟩, hty, h4⟩ := bind_eq_ok h3
        dsimp only at h4
        have hmid : ∃ mid : List Token, t1 = mid ++ t4 := by
          cases wt with
          | false =>
            simp only [Bool.false_eq_true, if_false] at hty
            have h14 : t1 = t4 := (Prod.mk.inj (PResult.ok.inj hty)).2
            exact ⟨[], by rw [h14]; rfl⟩
          | true =>
            simp only [if_true] at hty
            cases hCo : Parser.try_expect t1 .Colon with
            | some q =>
              obtain ⟨co, t2⟩ := q
              obtain ⟨rfl, hCoKind⟩ := try_expect_eq_some hCo
              rw [hCo] at hty
              obtain ⟨⟨tyTok, t3⟩, hexTy, hty2⟩ := bind_eq_ok hty
              obtain ⟨rfl, hTyKind⟩ := expect_eq_ok hexTy
              dsimp only at hty2
              obtain ⟨tys, htys, hty3⟩ := bind_eq_ok hty2
              have h34 : t3 = t4 := (Prod.mk.inj (PResult.ok.inj hty3)).2
              exact ⟨[co, tyTok], by rw [h34]; rfl⟩
            | none =>
              rw [hCo] at hty
              have h14 : t1 = t4 := (Prod.mk.inj (PResult.ok.inj hty)).2
              exact ⟨[], by rw [h14]; rfl⟩
        obtain ⟨mid, rfl⟩ := hmid
        cases hPr : Parser.try_expect t4 .PareR with
        | some q =>
          rw [hPr] at h4
          obtain ⟨pr2, t5⟩ := q
          simp at h4
        | none =>
          rw [hPr] at h4
          obtain ⟨⟨cm1, t5⟩, hexCm, h5⟩ := bind_eq_ok h4
          obtain ⟨rfl, hCmKind⟩ := expect_eq_ok hexCm
          dsimp only at h5
          obtain ⟨pre', el, c, pr, hdec, hElk, hPrk, hc⟩ := ih wt su _ res t5 rest h5
          subst hts
          refine ⟨arg :: (mid ++ cm1 :: pre'), el, c, pr, ?_, hElk, hPrk, hc⟩
          rw [hdec]
          simp

/-- Claim C8: if args succeeds with the variadic flag set, the consumed
parameter list ends with the ellipsis marker, at most one optional comma,
and the closing parenthesis; and the concrete list (a, ..., b) is rejected
with an ExpectedToken parse error. -/
theorem uma_c8 :
    (∀ (fuel : Nat) (wt su : Bool) (res : List (String × Option String))
        (ts rest : List Token),
      Parser.args fuel wt su ts = .ok ((res, true), rest) →
      ∃ t0 pre el c pr, ts = t0 :: pre ++ el :: c ++ pr :: rest ∧
        t0.kind = .PareL ∧ el.kind = .Ellipsis ∧ pr.kind = .PareR ∧
        (c = [] ∨ ∃ cm, c = [cm] ∧ cm.kind = .Comma)) ∧
    (∃ e, Parser.args 9 true true
        [kindToken .PareL, identToken ("a"), kindToken .Comma,
          kindToken .Ellipsis, kindToken .Comma, identToken ("b"),
          kindToken .PareR] = .err e ∧ e.type = .ExpectedToken) := by
  constructor
  · intro fuel wt su res ts rest h
    unfold Parser.args at h
    obtain ⟨⟨t0, t1⟩, hexL, h2⟩ := bind_eq_ok h
    obtain ⟨rfl, hLKind⟩ := expect_eq_ok hexL
    dsimp only at h2
    cases hPr : Parser.try_expect t1 .PareR with
    | some q =>
      rw [hPr] at h2
      obtain ⟨pr0, t2⟩ := q
      simp at h2
    | none =>
      rw [hPr] at h2
      obtain ⟨pre, el, c, pr, hdec, hElk, hPrk, hc⟩ :=
        args_loop_variadic fuel wt su [] res t1 rest h2
      exact ⟨t0, pre, el, c, pr, by rw [hdec]; simp, hLKind, hElk, hPrk, hc⟩
  · exact ⟨_, rfl, rfl⟩

/-- Advancing over a pending character moves it into current and keeps the
eof flag; only line and column depend on whether it is a newline. -/
theorem buffer_next_cons (c : Char) (rest : List Char) (eofb : Bool)
    (cur : Char) (ln col : Nat) :
    ∃ ln2 col2, Lexer.Buffer.next ⟨c :: rest, eofb, cur, ln, col⟩ =
      ⟨rest, eofb, c, ln2, col2⟩ := by
  by_cases h : c = '\n'
  · exact ⟨ln + 1, 0, by simp [Lexer.Buffer.next, h]⟩
  · exact ⟨ln, col + 1, by simp [Lexer.Buffer.next, h]⟩

/-- An ASCII digit is not an underscore. -/
theorem digit_not_underscore {c : Char} (h : c.isDigit = true) : ¬ c = '_' := by
  rintro rfl; revert h; decide

/-- An ASCII digit is not a decimal point. -/
theorem digit_not_dot {c : Char} (h : c.isDigit = true) : ¬ c = '.' := by
  rintro rfl; revert h; decide

/-- An ASCII digit is not the NUL sentinel. -/
theorem digit_ne_nul {c : Char} (h : c.isDigit = true) :
    (c == Char.ofNat 0) = false := by
  rw [beq_eq_false_iff_ne]
  rintro rfl
  revert h
  decide

/-- An ASCII digit is not a newline. -/
theorem digit_ne_newline {c : Char} (h : c.isDigit = true) : ¬ c = '\n' := by
  rintro rfl; revert h; decide

/-- An ASCII digit is dispatched to the number branch of lex, not to the
identifier branch. -/
theorem digit_not_ident_start {c : Char} (h : c.isDigit = true) :
    ¬ (('a' ≤ c ∧ c ≤ 'z') ∨ ('A' ≤ c ∧ c ≤ 'Z') ∨ c = '_') := by
  simp only [Char.isDigit, Bool.and_eq_true, decide_eq_true_eq] at h
  obtain ⟨hlo, hhi⟩ := h
  rw [ge_iff_le] at hlo
  rw [UInt32.le_def, BitVec.le_def] at hlo hhi
  have e3 : ((57 : UInt32)).toBitVec.toNat = 57 := rfl
  rw [e3] at hhi
  rintro (⟨h1, h2⟩ | ⟨h1, h2⟩ | rfl)
  · rw [Char.le_def, UInt32.le_def, BitVec.le_def] at h1
    have e1 : (('a').val).toBitVec.toNat = 97 := rfl
    rw [e1] at h1
    omega
  · rw [Char.le_def, UInt32.le_def, BitVec.le_def] at h1
    have e1 : (('A').val).toBitVec.toNat = 65 := rfl
    rw [e1] at h1
    omega
  · have e1 : (('_').val).toBitVec.toNat = 95 := rfl
    rw [e1] at hhi
    omega

/-- The three character-class facts packed in the negation of numberChar. -/
theorem not_numberChar_elim {c : Char} (h : ¬ numberChar c) :
    c.isDigit = false ∧ ¬ c = '_' ∧ ¬ c = '.' := by
  unfold numberChar at h
  push_neg at h
  exact ⟨by simpa using h.1, h.2.1, h.2.2⟩

/-- The number scan returns as soon as current leaves the number-character
class. -/
theorem parse_number_loop_exit (f : Nat) (out : List Char) (b : Lexer.Buffer)
    (h : ¬ numberChar b.current) :
    Lexer.parse_number_loop (f + 1) out b = .ok out b := by
  obtain ⟨h1, h2, h3⟩ := not_numberChar_elim h
  simp [Lexer.parse_number_loop, h1, h2, h3]

/-- One digit step of the number scan: push and advance. -/
theorem pnl_step_digit (f : Nat) (out : List Char) (b : Lexer.Buffer)
    (hd : b.current.isDigit = true) :
    Lexer.parse_number_loop (f + 1) out b =
      Lexer.parse_number_loop f (out ++ [b.current]) b.next := by
  simp [Lexer.parse_number_loop, hd, digit_not_underscore hd, digit_not_dot hd]

/-- One underscore step of the number scan: skip and advance. -/
theorem pnl_step_underscore (f : Nat) (out : List Char) (b : Lexer.Buffer)
    (hu : b.current = '_') :
    Lexer.parse_number_loop (f + 1) out b =
      Lexer.parse_number_loop f out b.next := by
  simp [Lexer.parse_number_loop, hu]

/-- One decimal-point step when the output has no point yet: push and
advance. -/
theorem pnl_step_dot_fresh (f : Nat) (out : List Char) (b : Lexer.Buffer)
    (hd : b.current = '.') (ho : '.' ∉ out) :
    Lexer.parse_number_loop (f + 1) out b =
      Lexer.parse_number_loop f (out ++ [b.current]) b.next := by
  simp [Lexer.parse_number_loop, hd, ho]

/-- A decimal point while the output already holds one aborts the scan. -/
theorem pnl_step_dot_dup (f : Nat) (out : List Char) (b : Lexer.Buffer)
    (hd : b.current = '.') (ho : '.' ∈ out) :
    Lexer.parse_number_loop (f + 1) out b =
      .fatal ("More than one decimal point found.") := by
  simp [Lexer.parse_number_loop, hd, ho]

/-- Membership in the underscore-stripped run, for non-underscore
characters. -/
theorem mem_stripUnderscores {x : Char} (hx : ¬ x = '_') :
    ∀ l : List Char, x ∈ stripUnderscores l ↔ x ∈ l := by
  intro l
  induction l with
  | nil => simp [stripUnderscores]
  | cons c rest ih =>
    by_cases hc : c = '_'
    · subst hc
      simp [stripUnderscores, ih, hx]
    · simp [stripUnderscores, hc, ih]

/-- Full run of the number scan over a number-character run followed by a
terminating character: the scan consumes exactly the run, returns it with
the underscores removed, and stops with the terminator as current. -/
theorem parse_number_loop_run : ∀ (mid : List Char) (cur term : Char)
    (out : List Char) (eofb : Bool) (ln col : Nat) (fuel : Nat),
    mid.length + 2 ≤ fuel → numberChar cur → (∀ c ∈ mid, numberChar c) →
    ¬ numberChar term → (out ++ cur :: mid).count '.' ≤ 1 →
    ∃ ln2 col2,
      Lexer.parse_number_loop fuel out ⟨mid ++ [term], eofb, cur, ln, col⟩ =
        .ok (out ++ stripUnderscores (cur :: mid)) ⟨[], eofb, term, ln2, col2⟩ := by
  intro mid
  induction mid with
  | nil =>
    intro cur term out eofb ln col fuel hfuel hcur hmid hterm hcount
    obtain ⟨f, rfl⟩ : ∃ f, fuel = f + 1 + 1 := ⟨fuel - 2, by omega⟩
    obtain ⟨ln2, col2, hnext⟩ := buffer_next_cons term [] eofb cur ln col
    refine ⟨ln2, col2, ?_⟩
    simp only [List.nil_append]
    rcases hcur with hd | hu | hdot
    · rw [pnl_step_digit (f + 1) out _ hd, hnext,
        parse_number_loop_exit f (out ++ [cur]) _ hterm]
      simp [stripUnderscores, digit_not_underscore hd]
    · rw [pnl_step_underscore (f + 1) out _ hu, hnext,
        parse_number_loop_exit f out _ hterm]
      simp [stripUnderscores, hu]
    · have h0 : out.count '.' = 0 := by
        simp [hdot, List.count_append, List.count_cons] at hcount
        omega
      have ho : '.' ∉ out := List.count_eq_zero.mp h0
      rw [pnl_step_dot_fresh (f + 1) out _ hdot ho, hnext,
        parse_number_loop_exit f (out ++ [cur]) _ hterm]
      simp [stripUnderscores, hdot]
  | cons m ms ih =>
    intro cur term out eofb ln col fuel hfuel hcur hmid hterm hcount
    obtain ⟨f, rfl⟩ : ∃ f, fuel = f + 1 := ⟨fuel - 1, by omega⟩
    simp only [List.cons_append]
    obtain ⟨ln2, col2, hnext⟩ := buffer_next_cons m (ms ++ [term]) eofb cur ln col
    have hm : numberChar m := hmid m (by simp)
    have hms : ∀ c ∈ ms, numberChar c := fun c hc => hmid c (by simp [hc])
    have hflen : ms.length + 2 ≤ f := by
      simp only [List.length_cons] at hfuel; omega
    rcases hcur with hd | hu | hdot
    · have hcount2 : ((out ++ [cur]) ++ m :: ms).count '.' ≤ 1 := by
        rw [List.append_assoc]; simpa using hcount
      obtain ⟨ln3, col3, hrun⟩ :=
        ih m term (out ++ [cur]) eofb ln2 col2 f hflen hm hms hterm hcount2
      refine ⟨ln3, col3, ?_⟩
      rw [pnl_step_digit f out _ hd, hnext, hrun]
      rw [List.append_assoc]
      simp [stripUnderscores, digit_not_underscore hd]
    · have hcount2 : (out ++ m :: ms).count '.' ≤ 1 := by
        have hceq : (out ++ cur :: m :: ms).count '.' =
            (out ++ m :: ms).count '.' := by
          simp [hu, List.count_append, List.count_cons]
        rw [← hceq]; exact hcount
      obtain ⟨ln3, col3, hrun⟩ :=
        ih m term out eofb ln2 col2 f hflen hm hms hterm hcount2
      refine ⟨ln3, col3, ?_⟩
      rw [pnl_step_underscore f out _ hu, hnext, hrun]
      simp [stripUnderscores, hu]
    · have h0 : out.count '.' = 0 := by
        simp [hdot, List.count_append, List.count_cons] at hcount
        omega
      have ho : '.' ∉ out := List.count_eq_zero.mp h0
      have hcount2 : ((out ++ [cur]) ++ m :: ms).count '.' ≤ 1 := by
        rw [List.append_assoc]; simpa using hcount
      obtain ⟨ln3, col3, hrun⟩ :=
        ih m term (out ++ [cur]) eofb ln2 col2 f hflen hm hms hterm hcount2
      refine ⟨ln3, col3, ?_⟩
      rw [pnl_step_dot_fresh f out _ hdot ho, hnext, hrun]
      rw [List.append_assoc]
      simp [stripUnderscores, hdot]

/-- A run containing at least two decimal points always aborts the number
scan with the duplicate-point message, before end of input is reached. -/
theorem parse_number_loop_twodots : ∀ (mid : List Char) (cur : Char)
    (out : List Char) (eofb : Bool) (ln col : Nat) (fuel : Nat),
    mid.length + 1 ≤ fuel → numberChar cur → (∀ c ∈ mid, numberChar c) →
    out.count '.' ≤ 1 → 2 ≤ out.count '.' + (cur :: mid).count '.' →
    Lexer.parse_number_loop fuel out ⟨mid, eofb, cur, ln, col⟩ =
      .fatal ("More than one decimal point found.") := by
  intro mid
  induction mid with
  | nil =>
    intro cur out eofb ln col fuel hfuel hcur hmid hout hsum
    obtain ⟨f, rfl⟩ : ∃ f, fuel = f + 1 :=
      ⟨fuel - 1, by simp only [List.length_nil] at hfuel; omega⟩
    have hcdot : cur = '.' := by
      by_contra hne
      simp [List.count_cons, hne] at hsum
      omega
    have ho : '.' ∈ out := by
      have h1 : List.count '.' (cur :: ([] : List Char)) = 1 := by
        rw [hcdot]; simp
      rw [h1] at hsum
      exact List.count_pos_iff.mp (by omega)
    exact pnl_step_dot_dup f out _ hcdot ho
  | cons m ms ih =>
    intro cur out eofb ln col fuel hfuel hcur hmid hout hsum
    obtain ⟨f, rfl⟩ : ∃ f, fuel = f + 1 := ⟨fuel - 1, by omega⟩
    obtain ⟨ln2, col2, hnext⟩ := buffer_next_cons m ms eofb cur ln col
    have hm : numberChar m := hmid m (by simp)
    have hms : ∀ x ∈ ms, numberChar x := fun x hx => hmid x (by simp [hx])
    have hflen : ms.length + 1 ≤ f := by
      simp only [List.length_cons] at hfuel; omega
    rcases hcur with hd | hu | hdot
    · rw [pnl_step_digit f out _ hd, hnext]
      refine ih m (out ++ [cur]) eofb ln2 col2 f hflen hm hms ?_ ?_
      · simpa [List.count_append, List.count_cons, digit_not_dot hd] using hout
      · have hne : ¬ cur = '.' := digit_not_dot hd
        simp only [List.count_cons] at hsum ⊢
        simp [List.count_append, List.count_cons, hne] at hsum ⊢
        omega
    · rw [pnl_step_underscore f out _ hu, hnext]
      refine ih m out eofb ln2 col2 f hflen hm hms hout ?_
      have hne : ¬ cur = '.' := by rw [hu]; decide
      simp [List.count_cons, hne] at hsum ⊢
      omega
    · by_cases ho : '.' ∈ out
      · exact pnl_step_dot_dup f out _ hdot ho
      · have h0 : out.count '.' = 0 := List.count_eq_zero.mpr ho
        rw [pnl_step_dot_fresh f out _ hdot ho, hnext]
        refine ih m (out ++ [cur]) eofb ln2 col2 f hflen hm hms ?_ ?_
        · simp [List.count_append, List.count_cons, hdot, h0]
        · simp [List.count_append, List.count_cons, hdot, h0] at hsum ⊢
          omega

/-- One lex iteration starting on a digit dispatches to parse_number. -/
theorem lex_number_token (G : Nat) (tokens : List Lexer.Token)
    (b : Lexer.Buffer) (hbe : b.eof = false) (hd : b.current.isDigit = true) :
    Lexer.lex (G + 1) tokens b =
      match Lexer.parse_number G b with
      | .ok tok b' => Lexer.lex G (tokens ++ [tok]) b'
      | .fatal m => .fatal m
      | .outOfFuel => .outOfFuel := by
  simp only [Lexer.lex]
  rw [if_neg (by simp [hbe]), if_neg (digit_not_ident_start hd), if_pos hd]

/-- From a buffer holding only a pending semicolon, lex emits the Semi token
and terminates at end of input. -/
theorem lex_semi_end (G : Nat) (acc : List Lexer.Token) (ln col : Nat) :
    Lexer.lex (G + 2) acc ⟨[], false, ';', ln, col⟩ =
      .ok (acc ++ [⟨.Semi, none⟩]) :=
  rfl

/-- The number scan of the input consisting of a digit and a final decimal
point either exhausts its fuel or aborts with the duplicate-point message:
at end of input, current stays at the point and is examined twice. -/
theorem pnl_one_dot_eof : ∀ f : Nat,
    Lexer.parse_number_loop f [] ⟨['.'], false, '1', 1, 0⟩ = .outOfFuel ∨
    Lexer.parse_number_loop f [] ⟨['.'], false, '1', 1, 0⟩ =
      .fatal ("More than one decimal point found.") := by
  intro f
  match f with
  | 0 => exact .inl rfl
  | 1 => exact .inl rfl
  | 2 => exact .inl rfl
  | f + 3 => exact .inr rfl

/-- Counterexample for claim C9: on the input 1. — a decimal-digit run with
a single decimal point, at the very end of the input — the lexer never
returns a token list at any fuel budget (it aborts with the spurious
more-than-one-decimal-point error, or runs out of fuel below that), so the
promised Float token with payload 1. is never produced. -/
theorem uma_c9_cex :
    ¬ ∃ (fuel : Nat) (out : List Lexer.Token),
      Lexer.lexInput fuel ['1', '.'] = .ok out := by
  rintro ⟨fuel, out, h⟩
  cases fuel with
  | zero => simp [Lexer.lexInput, Lexer.lex] at h
  | succ f =>
    have hstep : Lexer.lexInput (f + 1) ['1', '.'] =
        match Lexer.parse_number f ⟨['.'], false, '1', 1, 0⟩ with
        | .ok tok b' => Lexer.lex f ([] ++ [tok]) b'
        | .fatal m => .fatal m
        | .outOfFuel => .outOfFuel := rfl
    rw [hstep] at h
    simp only [Lexer.parse_number] at h
    rcases pnl_one_dot_eof f with hf | hf
    · rw [hf] at h
      simp at h
    · rw [hf] at h
      simp at h

/-- Claim C9 as amended: a decimal-digit run with underscores and at most
one decimal point lexes to the promised single token — kind Float exactly
when a point occurs, payload the run with underscores removed — when a
terminating character (here a semicolon) follows the run; and a run with a
second decimal point always aborts lexing with the
more-than-one-decimal-point error. (The unamended claim fails only for
runs that end the input; see the counterexample.) -/
theorem uma_c9_amended :
    (∀ (c : Char) (cs : List Char),
      c.isDigit = true → (∀ x ∈ c :: cs, numberChar x) →
      (c :: cs).count '.' ≤ 1 →
      Lexer.lexInput ((c :: cs).length + 5) ((c :: cs) ++ [';']) =
        .ok [⟨if '.' ∈ c :: cs then .Float else .Number,
          some (stripUnderscores (c :: cs))⟩, ⟨.Semi, none⟩]) ∧
    (∀ (c : Char) (cs : List Char),
      c.isDigit = true → (∀ x ∈ c :: cs, numberChar x) →
      2 ≤ (c :: cs).count '.' →
      Lexer.lexInput ((c :: cs).length + 5) (c :: cs) =
        .fatal ("More than one decimal point found.")) := by
  constructor
  · intro c cs hd hall hcount
    have hb0 : Lexer.Buffer.new ((c :: cs) ++ [';']) = ⟨cs ++ [';'], false, c, 1, 0⟩ := by
      simp only [List.cons_append, Lexer.Buffer.new]
      rw [digit_ne_nul hd, if_neg (digit_ne_newline hd)]
    simp only [Lexer.lexInput]
    rw [show (c :: cs).length + 5 = (cs.length + 5) + 1 from rfl]
    rw [hb0, lex_number_token (cs.length + 5) [] _ rfl hd]
    obtain ⟨ln2, col2, hrun⟩ := parse_number_loop_run cs c ';' [] false 1 0
      (cs.length + 5) (by omega) (Or.inl hd)
      (fun x hx => hall x (List.mem_cons_of_mem c hx)) (by decide)
      (by simpa using hcount)
    simp only [Lexer.parse_number]
    rw [hrun]
    dsimp only
    have hkind : (if '.' ∈ ([] ++ stripUnderscores (c :: cs)) then TokenKind.Float
        else TokenKind.Number) =
        (if '.' ∈ c :: cs then TokenKind.Float else TokenKind.Number) := by
      by_cases hm : '.' ∈ c :: cs
      · rw [if_pos hm, if_pos]
        simpa using (mem_stripUnderscores (by decide) (c :: cs)).mpr hm
      · rw [if_neg hm, if_neg]
        simpa using fun hmm => hm ((mem_stripUnderscores (by decide) (c :: cs)).mp hmm)
    rw [hkind]
    rw [show cs.length + 5 = cs.length + 3 + 2 from by omega]
    rw [lex_semi_end (cs.length + 3) _ ln2 col2]
    simp
  · intro c cs hd hall hcount
    have hb0 : Lexer.Buffer.new (c :: cs) = ⟨cs, false, c, 1, 0⟩ := by
      simp only [Lexer.Buffer.new]
      rw [digit_ne_nul hd, if_neg (digit_ne_newline hd)]
    simp only [Lexer.lexInput]
    rw [show (c :: cs).length + 5 = (cs.length + 5) + 1 from rfl]
    rw [hb0, lex_number_token (cs.length + 5) [] _ rfl hd]
    have htwo := parse_number_loop_twodots cs c [] false 1 0 (cs.length + 5)
      (by omega) (Or.inl hd) (fun x hx => hall x (List.mem_cons_of_mem c hx))
      (by simp) (by simpa using hcount)
    simp only [Lexer.parse_number]
    rw [htwo]

/-- Witness for C9: the run 1_2.5 followed by a semicolon lexes to the
Float token 12.5 and a Semi token, and the run 1.2.3 aborts. -/
theorem uma_c9_witness :
    Lexer.lexInput 10 ("1_2.5;".toList) =
      .ok [⟨.Float, some ("12.5".toList)⟩, ⟨.Semi, none⟩] ∧
    Lexer.lexInput 10 ("1.2.3".toList) =
      .fatal ("More than one decimal point found.") :=
  ⟨uma_c9_amended.1 '1' ['_', '2', '.', '5'] (by decide) (by decide) (by decide),
    uma_c9_amended.2 '1' ['.', '2', '.', '3'] (by decide) (by decide) (by decide)⟩

/-- Witness for C8: the general part applied to the list containing only
the ellipsis marker. -/
theorem uma_c8_witness :
    ∃ t0 pre el c pr,
      ([kindToken .PareL, kindToken .Ellipsis, kindToken .PareR] : List Token) =
        t0 :: pre ++ el :: c ++ pr :: ([] : List Token) ∧
      t0.kind = .PareL ∧ el.kind = .Ellipsis ∧ pr.kind = .PareR ∧
      (c = [] ∨ ∃ cm, c = [cm] ∧ cm.kind = .Comma) :=
  uma_c8.1 3 true true []
    [kindToken .PareL, kindToken .Ellipsis, kindToken .PareR] [] (by rfl)

/-- Every arithmetic operator has a strictly positive precedence. -/
theorem rop_prec_pos : ∀ o : Rop, 1 ≤ (Rop.kind o).precedence := by
  intro o; cases o <;> decide

/-- A number token parses as a primary to its literal node, consuming one
token, at any positive fuel. -/
theorem primary_ge (f : Nat) (hf : 1 ≤ f) (a : String) (ts : List Token) :
    Parser.primary f (numToken a :: ts) = .ok (atomStmt a, ts) := by
  obtain ⟨g, rfl⟩ : ∃ g, f = g + 1 := ⟨f - 1, by omega⟩
  rfl

/-- Operator list of a number atom. -/
theorem stmtOps_atom (a : String) : stmtOps (atomStmt a) = [] := rfl

/-- Atom list of a number atom. -/
theorem stmtAtoms_atom (a : String) : stmtAtoms (atomStmt a) = [a] := rfl

/-- Operator list of a Binary node. -/
theorem stmtOps_binary (l r : Stmt) (op : Token) :
    stmtOps (.Expr (.Binary l op r)) = stmtOps l ++ op.kind :: stmtOps r := rfl

/-- Atom list of a Binary node. -/
theorem stmtAtoms_binary (l r : Stmt) (op : Token) :
    stmtAtoms (.Expr (.Binary l op r)) = stmtAtoms l ++ stmtAtoms r := rfl

/-- A number atom is well grouped. -/
theorem wg_atom (a : String) : stmtWellGrouped (atomStmt a) := trivial

/-- Unfolding of the grouping discipline at a Binary node. -/
theorem stmtWellGrouped_binary (l r : Stmt) (op : Token) :
    stmtWellGrouped (.Expr (.Binary l op r)) =
      (stmtWellGrouped l ∧ stmtWellGrouped r ∧
        (∀ k ∈ stmtOps l, op.kind.precedence ≤ k.precedence) ∧
        (∀ k ∈ stmtOps r, op.kind.precedence < k.precedence)) := rfl

/-- The climbing loop returns its left argument on an empty stream. -/
theorem binary_nil (f : Nat) (hf : 1 ≤ f) (lhs : Stmt) (p : Int) :
    Parser.binary f lhs p [] = .ok (lhs, []) := by
  obtain ⟨g, rfl⟩ : ∃ g, f = g + 1 := ⟨f - 1, by omega⟩
  rfl

/-- Main loop invariant of the precedence-climbing parse over a flat
alternating stream: binary consumes the maximal prefix of operators binding
at least as tightly as the minimum precedence, produces a well-grouped tree
whose in-order operator and atom lists extend those of the left argument by
exactly the consumed prefix, in stream order, and stops in front of the
first operator binding more loosely. -/
theorem binary_climb : ∀ (n : Nat) (l : List (Rop × String)), l.length ≤ n →
    ∀ (fuel : Nat) (lhs : Stmt) (p : Int),
    2 * l.length + 1 ≤ fuel →
    stmtWellGrouped lhs →
    (∀ o a l', l = (o, a) :: l' →
      ∀ k ∈ stmtOps lhs, (Rop.kind o).precedence ≤ k.precedence) →
    ∃ c r t, l = c ++ r ∧
      Parser.binary fuel lhs p (renderOps l) = .ok (t, renderOps r) ∧
      stmtOps t = stmtOps lhs ++ c.map (fun q => Rop.kind q.1) ∧
      stmtAtoms t = stmtAtoms lhs ++ c.map Prod.snd ∧
      stmtWellGrouped t ∧
      (∀ q ∈ c, p ≤ (Rop.kind q.1).precedence) ∧
      (∀ o a r', r = (o, a) :: r' → (Rop.kind o).precedence < p) := by
  intro n
  induction n with
  | zero =>
    intro l hl fuel lhs p hfuel hwg hfence
    have hnil : l = [] := List.length_eq_zero.mp (Nat.le_zero.mp hl)
    subst hnil
    obtain ⟨f, rfl⟩ : ∃ f, fuel = f + 1 := ⟨fuel - 1, by omega⟩
    exact ⟨[], [], lhs, rfl, rfl, by simp, by simp, hwg, by simp,
      fun o a r' h => by simp at h⟩
  | succ n ihn =>
    intro l hl fuel lhs p hfuel hwg hfence
    rcases l with _ | ⟨⟨o, a⟩, l'⟩
    · obtain ⟨f, rfl⟩ : ∃ f, fuel = f + 1 := ⟨fuel - 1, by omega⟩
      exact ⟨[], [], lhs, rfl, rfl, by simp, by simp, hwg, by simp,
        fun o a r' h => by simp at h⟩
    · have hlen : l'.length ≤ n := by
        simp only [List.length_cons] at hl; omega
      obtain ⟨f, rfl⟩ : ∃ f, fuel = f + 1 :=
        ⟨fuel - 1, by simp only [List.length_cons] at hfuel; omega⟩
      have hf : 2 * l'.length + 2 ≤ f := by
        simp only [List.length_cons] at hfuel; omega
      have hpn : Parser.primary f (numToken a :: renderOps l') =
          .ok (atomStmt a, renderOps l') := primary_ge f (by omega) a (renderOps l')
      by_cases hlt : (Rop.kind o).precedence < p
      · refine ⟨[], (o, a) :: l', lhs, by simp, ?_, by simp, by simp, hwg, by simp, ?_⟩
        · simp only [renderOps, Parser.binary, Parser.peek, List.head?, kindToken]
          rw [if_pos hlt]
        · intro o' a' r' heq
          injection heq with h1 h2
          injection h1 with h3 h4
          subst h3
          exact hlt
      · have hple : p ≤ (Rop.kind o).precedence := not_lt.mp hlt
        rcases l' with _ | ⟨⟨o2, a2⟩, l''⟩
        · -- single trailing operator: fold once and stop at the empty stream
          simp only [renderOps] at hpn
          have kk : ∀ k, (kindToken k).kind = k := fun _ => rfl
          have hbin : Parser.binary (f + 1) lhs p (renderOps [(o, a)]) =
              .ok (.Expr (.Binary lhs (kindToken (Rop.kind o)) (atomStmt a)), []) := by
            simp only [renderOps, Parser.binary, Parser.peek, List.head?,
              Parser.consume, PResult.bind, kk, hpn]
            rw [if_neg hlt]
            exact binary_nil f (by omega)
              (.Expr (.Binary lhs (kindToken (Rop.kind o)) (atomStmt a))) p
          refine ⟨[(o, a)], [],
            .Expr (.Binary lhs (kindToken (Rop.kind o)) (atomStmt a)),
            by simp, hbin, ?_, ?_, ?_, ?_, fun o' a' r' h => by simp at h⟩
          · simp [stmtOps_binary, stmtOps_atom, kk]
          · simp [stmtAtoms_binary, stmtAtoms_atom]
          · rw [stmtWellGrouped_binary]
            exact ⟨hwg, wg_atom a, fun k hk => by
              simpa [kk] using hfence o a [] rfl k hk, fun k hk => by
              rw [stmtOps_atom] at hk; simp at hk⟩
          · intro q hq
            simp at hq
            rw [hq]
            exact hple
        · simp only [renderOps] at hpn
          have kk : ∀ k, (kindToken k).kind = k := fun _ => rfl
          by_cases hclimb : (Rop.kind o).precedence < (Rop.kind o2).precedence
          · -- inner climb at minimum precedence one above the operator
            have hfence2 : ∀ o' a' r', (o2, a2) :: l'' = (o', a') :: r' →
                ∀ k ∈ stmtOps (atomStmt a),
                  (Rop.kind o').precedence ≤ k.precedence := by
              intro o' a' r' _ k hk
              rw [stmtOps_atom] at hk
              simp at hk
            obtain ⟨c2, r2, t2, hdec2, hbin2, hops2, hatoms2, hwg2, hge2, hexit2⟩ :=
              ihn ((o2, a2) :: l'') hlen f (atomStmt a)
                ((Rop.kind o).precedence + 1)
                (by simp only [List.length_cons] at hf ⊢; omega) (wg_atom a) hfence2
            have hceq : l''.length + 1 = c2.length + r2.length := by
              have := congrArg List.length hdec2
              simpa using this
            have hlenr2 : r2.length ≤ n := by
              simp only [List.length_cons] at hlen
              omega
            have hopst2 : stmtOps t2 = c2.map (fun q => Rop.kind q.1) := by
              rw [hops2, stmtOps_atom, List.nil_append]
            have hwgNew : stmtWellGrouped
                (.Expr (.Binary lhs (kindToken (Rop.kind o)) t2)) := by
              rw [stmtWellGrouped_binary]
              refine ⟨hwg, hwg2, fun k hk => by
                simpa [kk] using hfence o a _ rfl k hk, fun k hk => ?_⟩
              rw [hopst2] at hk
              obtain ⟨q, hq, rfl⟩ := List.mem_map.mp hk
              have := hge2 q hq
              simp only [kk]
              omega
            have hfence3 : ∀ o3 a3 r3, r2 = (o3, a3) :: r3 →
                ∀ k ∈ stmtOps (.Expr (.Binary lhs (kindToken (Rop.kind o)) t2)),
                  (Rop.kind o3).precedence ≤ k.precedence := by
              intro o3 a3 r3 hr2 k hk
              have hsmall : (Rop.kind o3).precedence < (Rop.kind o).precedence + 1 :=
                hexit2 o3 a3 r3 hr2
              rw [stmtOps_binary] at hk
              rcases List.mem_append.mp hk with hk | hk
              · have := hfence o a _ rfl k hk
                omega
              · rcases List.mem_cons.mp hk with rfl | hk
                · simp only [kk]
                  omega
                · rw [hopst2] at hk
                  obtain ⟨q, hq, rfl⟩ := List.mem_map.mp hk
                  have := hge2 q hq
                  omega
            obtain ⟨c3, r3, t3, hdec3, hbin3, hops3, hatoms3, hwg3, hge3, hexit3⟩ :=
              ihn r2 hlenr2 f (.Expr (.Binary lhs (kindToken (Rop.kind o)) t2)) p
                (by simp only [List.length_cons] at hf; omega) hwgNew hfence3
            have hbin : Parser.binary (f + 1) lhs p
                (renderOps ((o, a) :: (o2, a2) :: l'')) = .ok (t3, renderOps r3) := by
              simp only [renderOps] at hbin2 ⊢
              simp only [Parser.binary, Parser.peek, List.head?, Parser.consume,
                PResult.bind, kk, hpn]
              rw [if_neg hlt, if_pos hclimb, hbin2]
              simp only [PResult.bind]
              exact hbin3
            refine ⟨(o, a) :: (c2 ++ c3), r3, t3, ?_, hbin, ?_, ?_, hwg3, ?_, hexit3⟩
            · rw [hdec3] at hdec2
              rw [hdec2]
              simp
            · rw [hops3, stmtOps_binary, hopst2]
              simp [kk]
            · rw [hatoms3, stmtAtoms_binary, hatoms2, stmtAtoms_atom]
              simp
            · intro q hq
              rcases List.mem_cons.mp hq with rfl | hq
              · exact hple
              · rcases List.mem_append.mp hq with hq | hq
                · have := hge2 q hq
                  omega
                · exact hge3 q hq
          · -- no climb: fold with the atom and continue the loop
            have ho2le : (Rop.kind o2).precedence ≤ (Rop.kind o).precedence :=
              not_lt.mp hclimb
            have hfence3 : ∀ o3 a3 r3, (o2, a2) :: l'' = (o3, a3) :: r3 →
                ∀ k ∈ stmtOps (.Expr (.Binary lhs (kindToken (Rop.kind o))
                  (atomStmt a))), (Rop.kind o3).precedence ≤ k.precedence := by
              intro o3 a3 r3 hr k hk
              injection hr with h1 h2
              injection h1 with h3 h4
              subst h3
              rw [stmtOps_binary, stmtOps_atom] at hk
              rcases List.mem_append.mp hk with hk | hk
              · have := hfence o a _ rfl k hk
                omega
              · rcases List.mem_cons.mp hk with rfl | hk
                · simp only [kk]
                  omega
                · simp at hk
            have hwgNew : stmtWellGrouped
                (.Expr (.Binary lhs (kindToken (Rop.kind o)) (atomStmt a))) := by
              rw [stmtWellGrouped_binary]
              exact ⟨hwg, wg_atom a, fun k hk => by
                simpa [kk] using hfence o a _ rfl k hk, fun k hk => by
                rw [stmtOps_atom] at hk; simp at hk⟩
            obtain ⟨c3, r3, t3, hdec3, hbin3, hops3, hatoms3, hwg3, hge3, hexit3⟩ :=
              ihn ((o2, a2) :: l'') hlen f
                (.Expr (.Binary lhs (kindToken (Rop.kind o)) (atomStmt a))) p
                (by simp only [List.length_cons] at hf ⊢; omega) hwgNew hfence3
            have hbin : Parser.binary (f + 1) lhs p
                (renderOps ((o, a) :: (o2, a2) :: l'')) = .ok (t3, renderOps r3) := by
              simp only [renderOps] at hbin3 ⊢
              simp only [Parser.binary, Parser.peek, List.head?, Parser.consume,
                PResult.bind, kk, hpn]
              rw [if_neg hlt, if_neg hclimb]
              simp only [PResult.bind]
              exact hbin3
            refine ⟨(o, a) :: c3, r3, t3, ?_, hbin, ?_, ?_, hwg3, ?_, hexit3⟩
            · rw [hdec3]
              simp
            · rw [hops3, stmtOps_binary, stmtOps_atom]
              simp [kk]
            · rw [hatoms3, stmtAtoms_binary, stmtAtoms_atom]
              simp
            · intro q hq
              rcases List.mem_cons.mp hq with rfl | hq
              · exact hple
              · exact hge3 q hq

/-- Claim C1: on every arithmetic expression over the five binary operators,
expr (primary then binary at minimum precedence 0) consumes the whole
stream and produces the reference precedence-climbing tree: its in-order
atoms and operators are the input in order, and it is well grouped — every
left subtree binds at least as tightly as its node (equal precedence folds
left-associatively) and every right subtree binds strictly tighter. The two
closing conjuncts check the cited examples: 9 + 10 * 3 parses to
Binary(+, 9, Binary(*, 10, 3)), and 4 + 5 + 10 * 3 groups as
(4 + 5) + (10 * 3). -/
theorem uma_c1 :
    (∀ (a0 : String) (l : List (Rop × String)),
      ∃ t, Parser.expr (2 * l.length + 3) (numToken a0 :: renderOps l) =
          .ok (t, []) ∧
        stmtAtoms t = a0 :: l.map Prod.snd ∧
        stmtOps t = l.map (fun q => Rop.kind q.1) ∧
        stmtWellGrouped t) ∧
    Parser.expr 9 [numToken ("9"), kindToken .Add, numToken ("10"),
        kindToken .Multi, numToken ("3")] =
      .ok (.Expr (.Binary (atomStmt ("9")) (kindToken .Add)
        (.Expr (.Binary (atomStmt ("10")) (kindToken .Multi)
          (atomStmt ("3"))))), []) ∧
    Parser.expr 11 [numToken ("4"), kindToken .Add, numToken ("5"),
        kindToken .Add, numToken ("10"), kindToken .Multi, numToken ("3")] =
      .ok (.Expr (.Binary
        (.Expr (.Binary (atomStmt ("4")) (kindToken .Add) (atomStmt ("5"))))
        (kindToken .Add)
        (.Expr (.Binary (atomStmt ("10")) (kindToken .Multi)
          (atomStmt ("3"))))), []) := by
  refine ⟨?_, rfl, rfl⟩
  intro a0 l
  obtain ⟨c, r, t, hdec, hbin, hops, hatoms, hwg, hge, hexit⟩ :=
    binary_climb l.length l le_rfl (2 * l.length + 2) (atomStmt a0) 0 (by omega)
      (wg_atom a0) (fun o a l' _ k hk => by rw [stmtOps_atom] at hk; simp at hk)
  have hr : r = [] := by
    rcases r with _ | ⟨⟨o', a'⟩, r'⟩
    · rfl
    · have h1 := hexit o' a' r' rfl
      have h2 := rop_prec_pos o'
      omega
  subst hr
  have hc : l = c := by simpa using hdec
  subst hc
  refine ⟨t, ?_, ?_, ?_, hwg⟩
  · rw [show 2 * l.length + 3 = (2 * l.length + 2) + 1 from rfl]
    simp only [Parser.expr]
    rw [primary_ge _ (by omega) a0 (renderOps l)]
    simp only [PResult.bind]
    simpa using hbin
  · rw [hatoms, stmtAtoms_atom]
    simp
  · rw [hops, stmtOps_atom]
    simp

/-- Witness for C1: the single-atom expression 7. -/
theorem uma_c1_witness :
    ∃ t, Parser.expr 3 [numToken ("7")] = .ok (t, []) ∧
      stmtAtoms t = ("7") :: List.map Prod.snd ([] : List (Rop × String)) ∧
      stmtOps t = List.map (fun q => Rop.kind q.1) ([] : List (Rop × String)) ∧
      stmtWellGrouped t :=
  uma_c1.1 ("7") []
